import Mathlib

/-!
Verification development for the pycco fork (src/pycco/main.py).

Text is modelled as `List Char`.  Python strings coming from a file split on
newlines, so the per-line operations below mirror the Python `str` methods
used by the source (`lstrip`, `rstrip`, `strip`, `startswith`, `endswith`,
`replace`, `split`, `lower`).  Machine-level details (unicode case tables)
are modelled for the ASCII range, which is what the Python 2 `str` methods
in the source operate on.
-/

/-- The backtick character, written via its code point. -/
def backtick : Char := Char.ofNat 96

/-- Python `str` whitespace for ASCII: the characters stripped by
`strip`, `lstrip`, `rstrip` and matched by the regex class `\s`. -/
def isPySpace (c : Char) : Bool :=
  c = ' ' || c = '\t' || c = '\n' || c = '\r' || c = '\x0b' || c = '\x0c'

/-- Python `s.lstrip()`. -/
def pyLStrip (s : List Char) : List Char := s.dropWhile isPySpace

/-- Python `s.rstrip()`. -/
def pyRStrip (s : List Char) : List Char := (s.reverse.dropWhile isPySpace).reverse

/-- Python `s.strip()`. -/
def pyStrip (s : List Char) : List Char := pyRStrip (pyLStrip s)

/-- Python `s.startswith(pre)`. -/
def beginsWith (s pre : List Char) : Bool := List.isPrefixOf pre s

/-- Python `s.endswith(suf)`. -/
def endsWith (s suf : List Char) : Bool := List.isSuffixOf suf s

/-- Helper for Python `s.split(sep)`: the segment up to the first
separator, paired with the splits of the remainder. -/
def pySplitCore (sep : Char) : List Char → List Char × List (List Char)
  | [] => ([], [])
  | c :: rest =>
    let p := pySplitCore sep rest
    if c = sep then ([], p.1 :: p.2) else (c :: p.1, p.2)

/-- Python `s.split(sep)` for a single-character separator: splits at every
occurrence, keeping empty pieces; `"".split(sep) == ['']`. -/
def pySplit (sep : Char) (l : List Char) : List (List Char) :=
  (pySplitCore sep l).1 :: (pySplitCore sep l).2

/-- Python `s.replace(old, new)`, fuelled so the recursion is structural
(the scan consumes at least one character per step, so fuel equal to the
input length always suffices; fuel irrelevance is proved below).  Replaces
non-overlapping occurrences left to right.  (For an empty `old`, which the
source never passes, this is the identity.) -/
def pyReplaceF : Nat → List Char → List Char → List Char → List Char
  | _, [], _, _ => []
  | 0, s, _, _ => s
  | fuel + 1, c :: rest, old, new =>
    if old ≠ [] ∧ List.isPrefixOf old (c :: rest) then
      new ++ pyReplaceF fuel ((c :: rest).drop old.length) old new
    else
      c :: pyReplaceF fuel rest old new

/-- Python `s.replace(old, new)`. -/
def pyReplace (s old new : List Char) : List Char := pyReplaceF s.length s old new

/-- Python 2 `str.lower` on one ASCII character. -/
def pyLowerChar (c : Char) : Char :=
  if 'A' ≤ c ∧ c ≤ 'Z' then Char.ofNat (c.toNat + 32) else c

/-- Python `s.lower()`. -/
def pyLower (s : List Char) : List Char := s.map pyLowerChar

/-- Model of `os.path.basename` (POSIX): the part after the last slash. -/
def basename (s : List Char) : List Char := (s.reverse.takeWhile (· ≠ '/')).reverse

/-!
## The renderer configuration

`prepare_renderer` (main.py lines 91-106) produces a dictionary carrying the
rendering function plus `multistart` / `multiend` taken from
`renderer_flavors`; the markdown flavor uses ` ``` ` for both.  The parse
loop additionally consults `renderer.get("strip_multi_delimiters")`, a key
that `prepare_renderer` never copies, so it is `None` (falsy) for every
renderer the module builds; we keep it as a field so the guarded branch at
lines 177-179 can be modelled.
-/

structure Renderer where
  multistart : Option (List Char)
  multiend : Option (List Char)
  strip_multi_delimiters : Bool
deriving DecidableEq, Repr

/-- The renderer produced by `prepare_renderer(default_render_opts)`:
markdown flavor, both delimiters ` ``` `, no `strip_multi_delimiters` key. -/
def mdRenderer : Renderer := ⟨some "```".data, some "```".data, false⟩

/-- A hypothetical markdown renderer dictionary that does carry a truthy
`strip_multi_delimiters` key (no renderer built by the module does). -/
def mdStripRenderer : Renderer := ⟨some "```".data, some "```".data, true⟩

/-!
## The section splitter (`parse`, main.py lines 132-200)
-/

structure PState where
  multi : Bool
  chunk : List Char
  sections : List (List Char)
deriving DecidableEq, Repr

structure ParsedDoc where
  title : List Char
  sections : List (List Char)
deriving DecidableEq, Repr

/-- The inner `save` helper (lines 151-155): append the chunk as a section
only when it is non-empty (Python truthiness of the string). -/
def save (sections : List (List Char)) (chunk : List Char) : List (List Char) :=
  if chunk = [] then sections else sections ++ [chunk]

/-- Line 164: both delimiters configured (non-None and non-empty, Python
`all`) and the line lstripped-starts-with or rstripped-ends-with either
delimiter. -/
def isDelimLine (r : Renderer) (line : List Char) : Bool :=
  match r.multistart, r.multiend with
  | some ms, some me =>
    !ms.isEmpty && !me.isEmpty &&
      ((beginsWith (pyLStrip line) ms || endsWith (pyRStrip line) ms) ||
       (beginsWith (pyLStrip line) me || endsWith (pyRStrip line) me))
  | _, _ => false

/-- Lines 170-172: the stripped line ends with `multiend` and is strictly
longer than it (checked on the unstripped-of-delimiters line). -/
def selfClosing (r : Renderer) (line : List Char) : Bool :=
  endsWith (pyStrip line) (r.multiend.getD []) &&
    decide ((r.multiend.getD []).length < (pyStrip line).length)

/-- Lines 177-179: remove all occurrences of both delimiter strings from the
line, but only when the renderer dictionary carries a truthy
`strip_multi_delimiters` key. -/
def stripDelims (r : Renderer) (line : List Char) : List Char :=
  if r.strip_multi_delimiters then
    pyReplace (pyReplace line (r.multistart.getD []) []) (r.multiend.getD []) []
  else line

/-- One iteration of the `for line in lines` loop (lines 163-197). -/
def parseStep (r : Renderer) (st : PState) (line : List Char) : PState :=
  if isDelimLine r line then
    let m1 := !st.multi
    let m2 := if m1 && selfClosing r line then false else m1
    let line2 := stripDelims r line
    let chunk1 := if m2 then st.chunk else st.chunk ++ '\n' :: line2
    { multi := m2
      chunk := if m2 then line2 else []
      sections := save st.sections chunk1 }
  else if st.multi then
    { multi := st.multi, chunk := st.chunk ++ '\n' :: line, sections := st.sections }
  else if line ≠ [] then
    { multi := st.multi, chunk := st.chunk ++ '\n' :: line, sections := st.sections }
  else
    { multi := st.multi, chunk := [], sections := save st.sections st.chunk }

/-- The text-splitting part of `parse` (lines 144-200): split on newlines,
drop a leading shebang line, pop the title, run the loop, flush the final
chunk.  Returns `none` when `lines.pop(0)` at line 157 would raise
`IndexError` (the list became empty after the shebang was removed). -/
def splitText (r : Renderer) (text : List Char) : Option ParsedDoc :=
  let lines0 := pySplit '\n' text
  let lines1 :=
    match lines0 with
    | [] => []
    | l0 :: rest => if beginsWith l0 "#!".data then rest else l0 :: rest
  match lines1 with
  | [] => none
  | title :: body =>
    let st := body.foldl (parseStep r) ⟨false, [], []⟩
    some ⟨title, save st.sections st.chunk⟩

/-!
## Language detection (`get_language`, main.py lines 333-348) and full `parse`

`babel.Locale.parse` is an external dependency; it is modelled as an oracle
`localeParse : List Char → Option (List Char)` returning the locale's
language code, with `none` standing for the library failing to recognize
the identifier (in the real library that path raises, and `get_language`
propagates the error either way).
-/

inductive PyErr where
  | valueError : String → PyErr
  | indexError : PyErr
deriving DecidableEq, Repr

instance {ε α : Type} [DecidableEq ε] [DecidableEq α] : DecidableEq (Except ε α) := fun a b =>
  match a, b with
  | Except.ok x, Except.ok y =>
    if h : x = y then isTrue (by rw [h]) else isFalse (by intro hc; cases hc; exact h rfl)
  | Except.error x, Except.error y =>
    if h : x = y then isTrue (by rw [h]) else isFalse (by intro hc; cases hc; exact h rfl)
  | Except.ok _, Except.error _ => isFalse (by intro hc; cases hc)
  | Except.error _, Except.ok _ => isFalse (by intro hc; cases hc)

/-- The `re.match(r'(.*)(\..+)', basename)` group(1) at line 343: the prefix
before the last dot that is followed by at least one further (non-newline)
character; `none` when the regex does not match. -/
def stemAux : List Char → Option (List Char)
  | [] => none
  | c :: rest =>
    match stemAux rest with
    | some t => some (c :: t)
    | none => if c = '.' ∧ rest ≠ [] then some [] else none

/-- Stem of a basename per the regex at line 343 (the `(.*)` group cannot
cross a newline, so the scan is restricted to the first line). -/
def fileStem (bn : List Char) : Option (List Char) :=
  stemAux (bn.takeWhile (fun c => c ≠ '\n'))

/-- Model of `get_language(source, code, language)` (lines 333-348); the `code`
argument is unused by the source. -/
def get_language (localeParse : List Char → Option (List Char))
    (source : List Char) (language : Option (List Char)) : Except PyErr (List Char) :=
  match language with
  | some lang =>
    match localeParse lang with
    | some l => Except.ok l
    | none => Except.error (PyErr.valueError "Unknown forced language")
  | none =>
    match fileStem (basename source) with
    | some stem =>
      match localeParse stem with
      | some l => Except.ok l
      | none => Except.error (PyErr.valueError "Can't figure out the language!")
    | none => Except.error (PyErr.valueError "Can't figure out the language!")

structure PyDoc where
  title : List Char
  language : List Char
  sections : List (List Char)
deriving DecidableEq, Repr

/-- Model of `parse(source, text, language, renderer)` (lines 132-200): determine the
language first (line 142), then split the text. -/
def parse (localeParse : List Char → Option (List Char)) (r : Renderer)
    (source text : List Char) (language : Option (List Char)) : Except PyErr PyDoc :=
  match get_language localeParse source language with
  | Except.error e => Except.error e
  | Except.ok lang =>
    match splitText r text with
    | none => Except.error PyErr.indexError
    | some d => Except.ok ⟨d.title, lang, d.sections⟩

/-!
## The cross-reference preprocessor (`preprocess`, main.py lines 221-257)

Two `re.sub` passes.  The heading pattern `^([=]+)([^=]+)[=]*\s*$` is
compiled without `re.MULTILINE`, so `^` anchors at the start of the whole
comment text and `$` at its end (or just before a final newline, which the
greedy `\s*` subsumes); the character classes `[^=]` and `\s` do match
newlines.  The cross-reference pattern is scanned left to right with
non-overlapping matches, one non-backtick character before the brackets,
and a lazy `(.+?)` group that cannot cross a newline.
-/

/-- Model of `sanitize_section_name` (lines 232-233): lower, strip, split on single
spaces, join with hyphens. -/
def joinDash : List (List Char) → List Char
  | [] => []
  | [x] => x
  | x :: xs => x ++ '-' :: joinDash xs

def sanitize_section_name (name : List Char) : List Char :=
  joinDash (pySplit ' ' (pyStrip (pyLower name)))

/-- Matcher for `^([=]+)([^=]+)[=]*\s*$` (no MULTILINE): maximal leading
run of `=`, then maximal run of non-`=` characters, then a maximal run of
`=`, and the remainder must be all whitespace.  Returns the two groups'
data: the count of leading `=` and the non-`=` text. -/
def headingMatch (s : List Char) : Option (Nat × List Char) :=
  let eqs := s.takeWhile (fun c => c = '=')
  let rest1 := s.dropWhile (fun c => c = '=')
  let g2 := rest1.takeWhile (fun c => !(c = '=' : Bool))
  let rest2 := rest1.dropWhile (fun c => !(c = '=' : Bool))
  let rest3 := rest2.dropWhile (fun c => c = '=')
  if 1 ≤ eqs.length ∧ 1 ≤ g2.length ∧ rest3.all isPySpace then
    some (eqs.length, g2)
  else none

/-- Model of `replace_section_name` (lines 247-252): the replacement string, with
`lvl` being the leading `=` run rewritten to `#`. -/
def headingRepl (k : Nat) (g2 : List Char) : List Char :=
  List.replicate k '#' ++ " <span id=\"".data ++ sanitize_section_name g2 ++
    "\" href=\"".data ++ sanitize_section_name g2 ++ "\">".data ++ g2 ++ "</span>".data

/-- The first `re.sub` (line 254): since the pattern is anchored at both
ends of the text, it either rewrites the whole comment or leaves it
unchanged. -/
def subHeading (s : List Char) : List Char :=
  match headingMatch s with
  | some (k, g2) => headingRepl k g2
  | none => s

/-- The lazy group of `\[\[(.+?)\]\]`: the shortest non-empty newline-free
prefix of `body` that is immediately followed by `]]`; `none` when no such
prefix exists before a newline intervenes. -/
def findGroup : List Char → Option (List Char × List Char)
  | [] => none
  | c :: rest =>
    if c = '\n' then none
    else if rest.take 2 = [']', ']'] then some ([c], rest.drop 2)
    else
      match findGroup rest with
      | some (g, after) => some (c :: g, after)
      | none => none

/-- The `\[\[(.+?)\]\]` portion of the cross-reference pattern, applied to
the text following the non-backtick character: requires two literal
opening brackets, then the lazy group. -/
def bracketMatch (rest : List Char) : Option (List Char × List Char) :=
  match rest with
  | '[' :: '[' :: body => findGroup body
  | _ => none

/-- Model of `replace_crossref` (lines 235-245).  `match.group(1).split('#')` is a
two-element unpacking: with two or more `#` characters Python raises
`ValueError`. -/
def crossrefRepl (res : List Char → List Char) (grp : List Char) : Except PyErr (List Char) :=
  if grp.count '#' = 0 then
    Except.ok (" [".data ++ grp ++ "](".data ++ basename (res grp) ++ ")".data)
  else if grp.count '#' = 1 then
    let nm := grp.takeWhile (fun c => c ≠ '#')
    let anchor := ((grp.dropWhile (fun c => c ≠ '#')).drop 1)
    Except.ok (" [".data ++ nm ++ "](".data ++ basename (res nm) ++ "#".data ++ anchor ++ ")".data)
  else Except.error (PyErr.valueError "too many values to unpack")

/-- The second `re.sub` (line 255), fuelled so the recursion is structural
(each step consumes at least one character, so fuel equal to the input
length always suffices; fuel irrelevance is proved below): scan left to
right for one non-backtick character followed by the bracket pattern;
replace each match (the preceding character included) by
`replace_crossref`'s output and resume after the match. -/
def crossrefScanF (res : List Char → List Char) : Nat → List Char → Except PyErr (List Char)
  | _, [] => Except.ok []
  | 0, l => Except.ok l
  | fuel + 1, c :: rest =>
    if c = backtick then
      (crossrefScanF res fuel rest).map (fun t => c :: t)
    else
      match bracketMatch rest with
      | some (grp, after) =>
        match crossrefRepl res grp with
        | Except.error e => Except.error e
        | Except.ok rep => (crossrefScanF res fuel after).map (fun t => rep ++ t)
      | none => (crossrefScanF res fuel rest).map (fun t => c :: t)

/-- The second `re.sub` (line 255). -/
def crossrefScan (res : List Char → List Char) (l : List Char) : Except PyErr (List Char) :=
  crossrefScanF res l.length l

/-- Model of `preprocess(comment, section_nr, destination)` (lines 221-257); the
`section_nr` argument is unused by the source, and `destination` is the
caller-supplied resolver. -/
def preprocess (res : List Char → List Char) (comment : List Char) : Except PyErr (List Char) :=
  crossrefScan res (subHeading comment)

/-!
## The translation merger (`merge_docs`, main.py lines 203-216)

Rendered documents carry sections that are dictionaries; after `highlight`
each has `text`, `html` and `num` keys, but `merge_docs` defends against a
missing `html` via `(section or {}).get('html', '')`, so `html` is kept
optional here.
-/

structure RSection where
  text : List Char
  html : Option (List Char)
  num : Option Nat
deriving DecidableEq, Repr

structure RDoc where
  title : List Char
  language : List Char
  sections : List RSection
deriving DecidableEq, Repr

structure MSection where
  num : Nat
  source_html : List Char
  translation_html : List Char
deriving DecidableEq, Repr

structure MDoc where
  source_title : List Char
  translation_title : List Char
  source_language : List Char
  translation_language : List Char
  sections : List MSection
deriving DecidableEq, Repr

/-- The `get_html` lambda (line 210): `(section or {}).get('html', '')`. -/
def getHtml : Option RSection → List Char
  | none => []
  | some s => s.html.getD []

/-- Model of `itertools.izip_longest` with the default `None` fill value. -/
def zipLongest {α β : Type} : List α → List β → List (Option α × Option β)
  | [], [] => []
  | a :: as, [] => (some a, none) :: zipLongest as []
  | [], b :: bs => (none, some b) :: zipLongest [] bs
  | a :: as, b :: bs => (some a, some b) :: zipLongest as bs

/-- The `for i, (s, t) in enumerate(...)` loop body (lines 211-215),
with the running index made explicit. -/
def mergeSections : Nat → List (Option RSection × Option RSection) → List MSection
  | _, [] => []
  | i, (sa, sb) :: rest => ⟨i, getHtml sa, getHtml sb⟩ :: mergeSections (i + 1) rest

/-- Model of `merge_docs(source_doc, translation_doc)` (lines 203-216). -/
def merge_docs (A B : RDoc) : MDoc :=
  ⟨A.title, B.title, A.language, B.language,
    mergeSections 0 (zipLongest A.sections B.sections)⟩

/-!
## Delimiter stripping never leaves a ` ``` ` behind (markdown delimiters)
-/

/-- Length of the maximal run of backticks at the head of the list. -/
def ticks : List Char → Nat
  | [] => 0
  | c :: rest => if c = backtick then ticks rest + 1 else 0

/-- Whether three consecutive backticks occur somewhere in the list. -/
def hasTriple : List Char → Bool
  | [] => false
  | c :: rest => (decide (c = backtick) && beginsWith rest "``".data) || hasTriple rest

/-- A three-section rendered source document for exercising the merger. -/
def mergeExampleA : RDoc :=
  ⟨"sa".data, "en".data,
    [⟨"t1".data, some "h1".data, some 0⟩,
     ⟨"t2".data, some "h2".data, some 1⟩,
     ⟨"t3".data, some "h3".data, some 2⟩]⟩

/-- A one-section rendered translation document for exercising the merger. -/
def mergeExampleB : RDoc :=
  ⟨"sb".data, "ja".data, [⟨"u1".data, some "g1".data, some 0⟩]⟩

/-- Validity conditions under which `[[name]]` is a clean bracket group for
the lazy pattern: non-empty, no newline (the dot cannot match one), no `]`
(which could end the group early) and no `[` (which could start another
match inside). -/
def validName (name : List Char) : Prop :=
  name ≠ [] ∧ '\n' ∉ name ∧ ']' ∉ name ∧ '[' ∉ name

instance (name : List Char) : Decidable (validName name) := by
  unfold validName
  infer_instance

theorem pyReplaceF_fuel : ∀ n m s old new, s.length ≤ n → s.length ≤ m →
    pyReplaceF n s old new = pyReplaceF m s old new := by
  intro n
  induction n with
  | zero =>
    intro m s old new hn _
    have : s = [] := List.length_eq_zero.mp (Nat.le_zero.mp hn)
    subst this
    cases m <;> rfl
  | succ n ih =>
    intro m s old new hn hm
    cases s with
    | nil => cases m <;> rfl
    | cons c rest =>
      cases m with
      | zero => simp at hm
      | succ m =>
        simp only [pyReplaceF]
        by_cases h : old ≠ [] ∧ List.isPrefixOf old (c :: rest)
        · simp only [if_pos h]
          have hol : 1 ≤ old.length := by
            cases old with
            | nil => exact absurd rfl h.1
            | cons a t => simp
          have hlen : ((c :: rest).drop old.length).length ≤ n := by
            simp only [List.length_drop, List.length_cons]
            simp only [List.length_cons] at hn
            omega
          have hlen2 : ((c :: rest).drop old.length).length ≤ m := by
            simp only [List.length_drop, List.length_cons]
            simp only [List.length_cons] at hm
            omega
          rw [ih m _ old new hlen hlen2]
        · simp only [if_neg h]
          have hlen : rest.length ≤ n := by
            simp only [List.length_cons] at hn; omega
          have hlen2 : rest.length ≤ m := by
            simp only [List.length_cons] at hm; omega
          rw [ih m rest old new hlen hlen2]

theorem pyReplace_nil (old new : List Char) : pyReplace [] old new = [] := rfl

theorem pyReplace_cons (c : Char) (rest old new : List Char) :
    pyReplace (c :: rest) old new =
      if old ≠ [] ∧ List.isPrefixOf old (c :: rest) then
        new ++ pyReplace ((c :: rest).drop old.length) old new
      else
        c :: pyReplace rest old new := by
  show pyReplaceF (rest.length + 1) (c :: rest) old new = _
  simp only [pyReplaceF]
  by_cases h : old ≠ [] ∧ List.isPrefixOf old (c :: rest)
  · simp only [if_pos h]
    unfold pyReplace
    have hol : 1 ≤ old.length := by
      cases old with
      | nil => exact absurd rfl h.1
      | cons a t => simp
    have : ((c :: rest).drop old.length).length ≤ rest.length := by
      simp only [List.length_drop, List.length_cons]; omega
    rw [pyReplaceF_fuel rest.length ((c :: rest).drop old.length).length _ old new this le_rfl]
  · simp only [if_neg h]
    unfold pyReplace
    rfl

theorem findGroup_after_lt :
    ∀ body g after, findGroup body = some (g, after) → after.length < body.length := by
  intro body
  induction body with
  | nil => simp [findGroup]
  | cons c rest ih =>
    intro g after h
    simp only [findGroup] at h
    split at h
    · simp at h
    · split at h
      · simp only [Option.some.injEq, Prod.mk.injEq] at h
        rcases h with ⟨h1, h2⟩
        subst h2
        have := List.length_drop 2 rest
        simp only [List.length_cons]
        omega
      · cases hrec : findGroup rest with
        | none => rw [hrec] at h; simp at h
        | some p =>
          obtain ⟨g0, a0⟩ := p
          rw [hrec] at h
          simp only [Option.some.injEq, Prod.mk.injEq] at h
          rcases h with ⟨h1, h2⟩
          subst h2
          have := ih _ _ hrec
          simp only [List.length_cons]
          omega

theorem bracketMatch_after_lt :
    ∀ rest g after, bracketMatch rest = some (g, after) → after.length < rest.length := by
  intro rest g after h
  unfold bracketMatch at h
  split at h
  · rename_i body
    have := findGroup_after_lt _ _ _ h
    simp only [List.length_cons]
    omega
  · simp at h

theorem crossrefScanF_fuel (res : List Char → List Char) : ∀ n m l, l.length ≤ n →
    l.length ≤ m → crossrefScanF res n l = crossrefScanF res m l := by
  intro n
  induction n with
  | zero =>
    intro m l hn _
    have : l = [] := List.length_eq_zero.mp (Nat.le_zero.mp hn)
    subst this
    cases m <;> rfl
  | succ n ih =>
    intro m l hn hm
    cases l with
    | nil => cases m <;> rfl
    | cons c rest =>
      cases m with
      | zero => simp at hm
      | succ m =>
        simp only [crossrefScanF]
        simp only [List.length_cons] at hn hm
        by_cases hc : c = backtick
        · simp only [if_pos hc]
          rw [ih m rest (by omega) (by omega)]
        · simp only [if_neg hc]
          cases hbm : bracketMatch rest with
          | none => rw [ih m rest (by omega) (by omega)]
          | some p =>
            obtain ⟨grp, after⟩ := p
            have := bracketMatch_after_lt _ _ _ hbm
            cases hcr : crossrefRepl res grp with
            | error e => simp only [hcr]
            | ok rep =>
              simp only [hcr]
              rw [ih m after (by omega) (by omega)]

theorem crossrefScan_nil (res : List Char → List Char) : crossrefScan res [] = Except.ok [] := rfl

theorem crossrefScan_cons (res : List Char → List Char) (c : Char) (rest : List Char) :
    crossrefScan res (c :: rest) =
      if c = backtick then
        (crossrefScan res rest).map (fun t => c :: t)
      else
        match bracketMatch rest with
        | some (grp, after) =>
          match crossrefRepl res grp with
          | Except.error e => Except.error e
          | Except.ok rep => (crossrefScan res after).map (fun t => rep ++ t)
        | none => (crossrefScan res rest).map (fun t => c :: t) := by
  show crossrefScanF res (rest.length + 1) (c :: rest) = _
  simp only [crossrefScanF]
  by_cases hc : c = backtick
  · simp only [if_pos hc]; rfl
  · simp only [if_neg hc]
    cases hbm : bracketMatch rest with
    | none => rfl
    | some p =>
      obtain ⟨grp, after⟩ := p
      have := bracketMatch_after_lt _ _ _ hbm
      cases hcr : crossrefRepl res grp with
      | error e => simp only [hcr]
      | ok rep =>
        simp only [hcr]
        unfold crossrefScan
        rw [crossrefScanF_fuel res rest.length after.length after (by omega) le_rfl]

/-!
## Lemmas about the splitter
-/

theorem pySplitCore_no_sep (sep : Char) :
    ∀ l : List Char, sep ∉ l → pySplitCore sep l = (l, []) := by
  intro l
  induction l with
  | nil => intro _; rfl
  | cons c rest ih =>
    intro h
    have hc : ¬ c = sep := fun hc => h (hc ▸ List.mem_cons_self c rest)
    have hrest : sep ∉ rest := fun hr => h (List.mem_cons_of_mem c hr)
    simp only [pySplitCore, ih hrest, if_neg hc]

theorem pySplitCore_snd_nil (sep : Char) :
    ∀ l : List Char, (pySplitCore sep l).2 = [] →
      sep ∉ l ∧ (pySplitCore sep l).1 = l := by
  intro l
  induction l with
  | nil => intro _; exact ⟨List.not_mem_nil sep, rfl⟩
  | cons c rest ih =>
    intro h
    simp only [pySplitCore] at h ⊢
    by_cases hc : c = sep
    · rw [if_pos hc] at h
      exact absurd h (by simp)
    · rw [if_neg hc] at h
      obtain ⟨h1, h2⟩ := ih h
      rw [if_neg hc]
      constructor
      · intro hmem
        rcases List.mem_cons.mp hmem with h3 | h3
        · exact hc h3.symm
        · exact h1 h3
      · simp [h2]

theorem save_sections_nonempty (secs : List (List Char)) (chunk : List Char)
    (h : ∀ s ∈ secs, s ≠ []) : ∀ s ∈ save secs chunk, s ≠ [] := by
  unfold save
  by_cases hch : chunk = []
  · simp only [if_pos hch]; exact h
  · simp only [if_neg hch]
    intro s hs
    rcases List.mem_append.mp hs with h1 | h1
    · exact h s h1
    · rw [List.mem_singleton.mp h1]; exact hch

theorem parseStep_sections_nonempty (r : Renderer) (st : PState) (line : List Char)
    (h : ∀ s ∈ st.sections, s ≠ []) :
    ∀ s ∈ (parseStep r st line).sections, s ≠ [] := by
  intro s hs
  unfold parseStep at hs
  split at hs
  · dsimp only at hs
    exact save_sections_nonempty _ _ h s hs
  · split at hs
    · dsimp only at hs
      exact h s hs
    · split at hs
      · dsimp only at hs
        exact h s hs
      · dsimp only at hs
        exact save_sections_nonempty _ _ h s hs

theorem foldl_parseStep_sections_nonempty (r : Renderer) :
    ∀ (lines : List (List Char)) (st : PState), (∀ s ∈ st.sections, s ≠ []) →
      ∀ s ∈ (lines.foldl (parseStep r) st).sections, s ≠ [] := by
  intro lines
  induction lines with
  | nil => intro st h; exact h
  | cons l rest ih =>
    intro st h
    simp only [List.foldl_cons]
    exact ih (parseStep r st l) (parseStep_sections_nonempty r st l h)

/-!
## Claims about the splitter
-/

/-- Claim C1, counterexample: with the renderer the module actually builds
(markdown, no `strip_multi_delimiters` key), a block-comment region's
delimiters are NOT stripped: the section emitted for an opening line
` ```python ` and a closing line ` ``` ` contains both delimiter lines'
backtick runs. -/
theorem claim_C1_counterexample :
    splitText mdRenderer "t\n```python\ncode\n```".data =
      some ⟨"t".data, ["```python\ncode\n```".data]⟩ ∧
    List.IsInfix "```".data "```python\ncode\n```".data := by decide

/-- Claim C2: a line that toggles the block flag on (`multi` was off and the
line matches a delimiter) whose stripped form ends with the end delimiter
and is strictly longer than it is a self-closing single-line block comment:
the flag is forced back off, exactly one section (the pending buffer plus
this line) is flushed, and a following ordinary line is treated as
non-block content. -/
theorem claim_C2 (r : Renderer) (st : PState) (line : List Char)
    (hm : st.multi = false) (hd : isDelimLine r line = true)
    (he : endsWith (pyStrip line) (r.multiend.getD []) = true)
    (hl : (r.multiend.getD []).length < (pyStrip line).length) :
    parseStep r st line =
      ⟨false, [], st.sections ++ [st.chunk ++ '\n' :: stripDelims r line]⟩ ∧
    ∀ next, isDelimLine r next = false → next ≠ [] →
      parseStep r (parseStep r st line) next =
        ⟨false, '\n' :: next, st.sections ++ [st.chunk ++ '\n' :: stripDelims r line]⟩ := by
  have hs : selfClosing r line = true := by simp [selfClosing, he, hl]
  have h1 : parseStep r st line =
      ⟨false, [], st.sections ++ [st.chunk ++ '\n' :: stripDelims r line]⟩ := by
    simp [parseStep, save, hm, hd, hs]
  refine ⟨h1, fun next hnd hne => ?_⟩
  rw [h1]
  simp [parseStep, hnd, hne]

theorem claim_C2_witness :
    parseStep mdRenderer ⟨false, "x".data, []⟩ "```inline code```".data =
      ⟨false, [], ["x\n```inline code```".data]⟩ ∧
    parseStep mdRenderer (parseStep mdRenderer ⟨false, "x".data, []⟩ "```inline code```".data)
        "next".data = ⟨false, "\nnext".data, ["x\n```inline code```".data]⟩ := by
  have h := claim_C2 mdRenderer ⟨false, "x".data, []⟩ "```inline code```".data rfl
    (by decide) (by decide) (by decide)
  exact ⟨h.1, h.2 "next".data (by decide) (by decide)⟩

/-- Claim C3, counterexample: when a block-delimiter line turns the flag on,
the splitter DOES flush the accumulated buffer: `code` before the
` ```python ` opener becomes its own section instead of being merged. -/
theorem claim_C3_counterexample :
    splitText mdRenderer "t\ncode\n```python\nx\n```".data =
      some ⟨"t".data, ["\ncode".data, "```python\nx\n```".data]⟩ := by decide

/-- Claim C3 amended: when a block-delimiter line turns the flag on without
self-closing, the splitter first flushes the non-empty accumulated buffer
as its own section (lines 184-186 run regardless of the flag) and then
starts a fresh buffer with that line's content (stripped only when the
renderer carries `strip_multi_delimiters`; unchanged for the default
renderer). -/
theorem claim_C3_amended (r : Renderer) (st : PState) (line : List Char)
    (hm : st.multi = false) (hd : isDelimLine r line = true)
    (hs : selfClosing r line = false) :
    parseStep r st line = ⟨true, stripDelims r line, save st.sections st.chunk⟩ ∧
    (st.chunk ≠ [] → (parseStep r st line).sections = st.sections ++ [st.chunk]) := by
  have h1 : parseStep r st line = ⟨true, stripDelims r line, save st.sections st.chunk⟩ := by
    simp [parseStep, hm, hd, hs]
  refine ⟨h1, fun hch => ?_⟩
  rw [h1]
  simp [save, hch]

theorem claim_C3_amended_witness :
    parseStep mdRenderer ⟨false, "\ncode".data, []⟩ "```python".data =
      ⟨true, "```python".data, ["\ncode".data]⟩ :=
  (claim_C3_amended mdRenderer ⟨false, "\ncode".data, []⟩ "```python".data rfl
    (by decide) (by decide)).1

/-- Claim C4, counterexample: a text consisting only of a shebang line does
NOT degrade gracefully: after the shebang is removed the title pop has no
line left, which raises `IndexError` in the source (modelled as `none`). -/
theorem claim_C4_counterexample : splitText mdRenderer "#!x".data = none := by decide

/-- Claim C4 amended: the split succeeds for every input text except one
consisting solely of a shebang line (a text that starts with `#!` and
contains no newline); in particular a block comment opened but never
closed is flushed as a final section rather than raising. -/
theorem claim_C4_amended :
    (∀ (r : Renderer) (text : List Char),
      splitText r text = none ↔ beginsWith text "#!".data = true ∧ '\n' ∉ text) ∧
    splitText mdRenderer "t\n```python\ncode".data =
      some ⟨"t".data, ["```python\ncode".data]⟩ := by
  constructor
  · intro r text
    unfold splitText pySplit
    dsimp only
    constructor
    · intro h
      by_cases hb : beginsWith (pySplitCore '\n' text).1 "#!".data = true
      · rw [if_pos hb] at h
        cases hsnd : (pySplitCore '\n' text).2 with
        | nil =>
          obtain ⟨hnot, hfst⟩ := pySplitCore_snd_nil '\n' text hsnd
          rw [hfst] at hb
          exact ⟨hb, hnot⟩
        | cons a t => rw [hsnd] at h; exact absurd h (by simp)
      · rw [if_neg hb] at h
        exact absurd h (by simp)
    · rintro ⟨hb, hnl⟩
      have hcore := pySplitCore_no_sep '\n' text hnl
      rw [hcore]
      dsimp only
      rw [if_pos hb]
  · decide

theorem claim_C4_amended_witness : splitText mdRenderer "#!only".data = none :=
  (claim_C4_amended.1 mdRenderer "#!only".data).mpr ⟨by decide, by decide⟩

/-- Claim C8: every section emitted by the splitter is non-empty (the `save`
helper drops empty chunks), and a text consisting only of blank lines
yields zero sections. -/
theorem claim_C8 :
    (∀ (r : Renderer) (text : List Char) (d : ParsedDoc),
      splitText r text = some d → ∀ s ∈ d.sections, s ≠ []) ∧
    splitText mdRenderer "\n\n\n".data = some ⟨[], []⟩ := by
  constructor
  · intro r text d h
    unfold splitText at h
    dsimp only at h
    split at h
    · exact absurd h (by simp)
    · rename_i title body heq
      rw [Option.some.injEq] at h
      subst h
      dsimp only
      exact save_sections_nonempty _ _
        (foldl_parseStep_sections_nonempty r body ⟨false, [], []⟩ (by simp)) 
  · decide

theorem claim_C8_witness : "\nx".data ≠ [] :=
  claim_C8.1 mdRenderer "t\nx".data ⟨"t".data, ["\nx".data]⟩ (by decide) "\nx".data (by decide)

theorem ticks_cons (c : Char) (rest : List Char) :
    ticks (c :: rest) = if c = backtick then ticks rest + 1 else 0 := rfl

theorem hasTriple_cons (c : Char) (rest : List Char) :
    hasTriple (c :: rest) =
      ((decide (c = backtick) && beginsWith rest "``".data) || hasTriple rest) := rfl

theorem two_ticks_iff : ∀ l : List Char, beginsWith l "``".data = true ↔ 2 ≤ ticks l := by
  intro l
  unfold beginsWith
  have h2 : "``".data = [backtick, backtick] := by decide
  rw [h2]
  rcases l with _ | ⟨a, _ | ⟨b, t⟩⟩
  · constructor
    · intro h; exact absurd h (by simp [List.isPrefixOf])
    · intro h; exact absurd h (by simp [ticks])
  · constructor
    · intro h; exact absurd h (by simp [List.isPrefixOf])
    · intro h
      exfalso
      rw [ticks_cons] at h
      by_cases ha : a = backtick
      · rw [if_pos ha] at h; simp [ticks] at h
      · rw [if_neg ha] at h; omega
  · rw [ticks_cons, ticks_cons]
    constructor
    · intro h
      simp only [List.isPrefixOf, Bool.and_eq_true, beq_iff_eq] at h
      obtain ⟨ha, hb, -⟩ := h
      rw [if_pos ha.symm, if_pos hb.symm]
      omega
    · intro h
      by_cases ha : a = backtick
      · by_cases hb : b = backtick
        · simp [List.isPrefixOf, ha, hb]
        · exfalso; rw [if_pos ha, if_neg hb] at h; omega
      · exfalso; rw [if_neg ha] at h; omega

theorem triple_isPrefixOf_iff :
    ∀ l : List Char, List.isPrefixOf "```".data l = true ↔ 3 ≤ ticks l := by
  intro l
  have h3 : "```".data = [backtick, backtick, backtick] := by decide
  rw [h3]
  rcases l with _ | ⟨a, _ | ⟨b, _ | ⟨c, t⟩⟩⟩
  · constructor
    · intro h; exact absurd h (by simp [List.isPrefixOf])
    · intro h; exact absurd h (by simp [ticks])
  · constructor
    · intro h; exact absurd h (by simp [List.isPrefixOf])
    · intro h
      exfalso
      rw [ticks_cons] at h
      by_cases ha : a = backtick
      · rw [if_pos ha] at h; simp [ticks] at h
      · rw [if_neg ha] at h; omega
  · constructor
    · intro h; exact absurd h (by simp [List.isPrefixOf])
    · intro h
      exfalso
      rw [ticks_cons] at h
      by_cases ha : a = backtick
      · rw [if_pos ha, ticks_cons] at h
        by_cases hb : b = backtick
        · rw [if_pos hb] at h; simp [ticks] at h
        · rw [if_neg hb] at h; omega
      · rw [if_neg ha] at h; omega
  · rw [ticks_cons, ticks_cons, ticks_cons]
    constructor
    · intro h
      simp only [List.isPrefixOf, Bool.and_eq_true, beq_iff_eq] at h
      obtain ⟨ha, hb, hc, -⟩ := h
      rw [if_pos ha.symm, if_pos hb.symm, if_pos hc.symm]
      omega
    · intro h
      by_cases ha : a = backtick
      · by_cases hb : b = backtick
        · by_cases hc : c = backtick
          · simp [List.isPrefixOf, ha, hb, hc]
          · exfalso; rw [if_pos ha, if_pos hb, if_neg hc] at h; omega
        · exfalso; rw [if_pos ha, if_neg hb] at h; omega
      · exfalso; rw [if_neg ha] at h; omega

theorem ticks_triple_append (t : List Char) : ticks ("```".data ++ t) = ticks t + 3 := by
  have h3 : "```".data = [backtick, backtick, backtick] := by decide
  rw [h3]
  show ticks (backtick :: backtick :: backtick :: t) = ticks t + 3
  rw [ticks_cons, if_pos rfl, ticks_cons, if_pos rfl, ticks_cons, if_pos rfl]

theorem pyReplace_ticks_aux : ∀ (n : Nat) (l : List Char), l.length ≤ n →
    hasTriple (pyReplace l "```".data []) = false ∧
    ticks (pyReplace l "```".data []) ≤ ticks l ∧
    ticks (pyReplace l "```".data []) ≤ 2 := by
  intro n
  induction n with
  | zero =>
    intro l hl
    have : l = [] := List.length_eq_zero.mp (Nat.le_zero.mp hl)
    subst this
    exact ⟨rfl, le_rfl, by rw [pyReplace_nil]; exact Nat.zero_le 2⟩
  | succ n ih =>
    intro l hl
    cases l with
    | nil => exact ⟨rfl, le_rfl, by rw [pyReplace_nil]; exact Nat.zero_le 2⟩
    | cons c rest =>
      rw [pyReplace_cons]
      by_cases hp : ("```".data ≠ [] ∧ List.isPrefixOf "```".data (c :: rest))
      · rw [if_pos hp]
        obtain ⟨t, ht⟩ := List.isPrefixOf_iff_prefix.mp hp.2
        have hdrop : (c :: rest).drop ("```".data).length = t := by
          rw [← ht, List.drop_left]
        have hlen : t.length ≤ n := by
          have hlt := congrArg List.length ht
          rw [List.length_append] at hlt
          have h3 : ("```".data).length = 3 := by decide
          rw [h3] at hlt
          simp only [List.length_cons] at hlt hl
          omega
        have hticks : ticks (c :: rest) = ticks t + 3 := by
          rw [← ht, ticks_triple_append]
        obtain ⟨ih1, ih2, ih3⟩ := ih t hlen
        rw [hdrop, List.nil_append]
        exact ⟨ih1, by omega, ih3⟩
      · rw [if_neg hp]
        have hnp : ¬ List.isPrefixOf "```".data (c :: rest) = true := by
          intro hc
          exact hp ⟨by decide, hc⟩
        have hlt : ticks (c :: rest) ≤ 2 := by
          by_contra hgt
          exact hnp ((triple_isPrefixOf_iff (c :: rest)).mpr (by omega))
        have hlen : rest.length ≤ n := by
          simp only [List.length_cons] at hl; omega
        obtain ⟨ih1, ih2, ih3⟩ := ih rest hlen
        refine ⟨?_, ?_, ?_⟩
        · rw [hasTriple_cons, ih1, Bool.or_false]
          by_cases hc : c = backtick
          · have h1 : ticks rest ≤ 1 := by
              rw [ticks_cons, if_pos hc] at hlt; omega
            have h2 : ticks (pyReplace rest "```".data []) ≤ 1 := le_trans ih2 h1
            have h3 : beginsWith (pyReplace rest "```".data []) "``".data = false := by
              rw [← Bool.not_eq_true]
              intro hbw
              have := (two_ticks_iff _).mp hbw
              omega
            rw [h3, Bool.and_false]
          · have h3 : decide (c = backtick) = false := by
              rw [decide_eq_false_iff_not]; exact hc
            rw [h3, Bool.false_and]
        · rw [ticks_cons, ticks_cons]
          by_cases hc : c = backtick
          · rw [if_pos hc, if_pos hc]; omega
          · rw [if_neg hc, if_neg hc]
        · rw [ticks_cons]
          by_cases hc : c = backtick
          · rw [if_pos hc]
            have h1 : ticks rest ≤ 1 := by
              rw [ticks_cons, if_pos hc] at hlt; omega
            omega
          · rw [if_neg hc]; omega

theorem pyReplace_no_triple (l : List Char) :
    hasTriple (pyReplace l "```".data []) = false :=
  (pyReplace_ticks_aux l.length l le_rfl).1

theorem hasTriple_iff_contains_triple :
    ∀ l : List Char, hasTriple l = true ↔ List.IsInfix "```".data l := by
  intro l
  induction l with
  | nil =>
    constructor
    · intro h; exact absurd h (by simp [hasTriple])
    · intro h
      exfalso
      have := h.length_le
      have h3 : ("```".data).length = 3 := by decide
      rw [h3] at this
      simp at this
  | cons c rest ih =>
    rw [hasTriple_cons, List.infix_cons_iff]
    constructor
    · intro h
      rcases Bool.or_eq_true_iff.mp h with h1 | h1
      · obtain ⟨hd, hbw⟩ := Bool.and_eq_true_iff.mp h1
        have hc : c = backtick := of_decide_eq_true hd
        left
        apply List.isPrefixOf_iff_prefix.mp
        rw [triple_isPrefixOf_iff, ticks_cons, if_pos hc]
        have := (two_ticks_iff rest).mp hbw
        omega
      · exact Or.inr (ih.mp h1)
    · rintro (h | h)
      · have h3 := (triple_isPrefixOf_iff (c :: rest)).mp (List.isPrefixOf_iff_prefix.mpr h)
        have hc : c = backtick := by
          by_contra hc
          rw [ticks_cons, if_neg hc] at h3
          omega
        apply Bool.or_eq_true_iff.mpr
        left
        apply Bool.and_eq_true_iff.mpr
        refine ⟨decide_eq_true hc, (two_ticks_iff rest).mpr ?_⟩
        rw [ticks_cons, if_pos hc] at h3
        omega
      · exact Bool.or_eq_true_iff.mpr (Or.inr (ih.mpr h))

/-- Claim C1 amended: stripping happens only under the
`strip_multi_delimiters` renderer key.  With it set, removing all
occurrences of the markdown delimiters from a line can never leave a
` ``` ` substring behind, and the spec's example block then yields a
section containing neither delimiter; with the default renderer (key
absent) the very same input keeps both delimiters in the emitted
section. -/
theorem claim_C1_amended :
    (∀ line : List Char, ¬ List.IsInfix "```".data (stripDelims mdStripRenderer line)) ∧
    splitText mdStripRenderer "t\n```python\ncode\n```".data =
      some ⟨"t".data, ["python\ncode\n".data]⟩ ∧
    (¬ List.IsInfix "```".data "python\ncode\n".data) ∧
    splitText mdRenderer "t\n```python\ncode\n```".data =
      some ⟨"t".data, ["```python\ncode\n```".data]⟩ := by
  refine ⟨?_, by decide, by decide, by decide⟩
  intro line hinf
  have h1 : hasTriple (stripDelims mdStripRenderer line) = true :=
    (hasTriple_iff_contains_triple _).mpr hinf
  have h2 : stripDelims mdStripRenderer line =
      pyReplace (pyReplace line "```".data []) "```".data [] := rfl
  rw [h2, pyReplace_no_triple] at h1
  exact Bool.false_ne_true h1

theorem claim_C1_amended_witness :
    ¬ List.IsInfix "```".data (stripDelims mdStripRenderer "x ``` y ```".data) :=
  claim_C1_amended.1 "x ``` y ```".data

/-!
## Lemmas about the merger
-/

theorem zipLongest_length {α β : Type} :
    ∀ (as : List α) (bs : List β), (zipLongest as bs).length = max as.length bs.length := by
  intro as
  induction as with
  | nil =>
    intro bs
    induction bs with
    | nil => simp [zipLongest]
    | cons b bs ihb =>
      simp only [zipLongest, List.length_cons, ihb, List.length_nil]
      omega
  | cons a as iha =>
    intro bs
    cases bs with
    | nil =>
      simp only [zipLongest, List.length_cons, iha, List.length_nil]
      omega
    | cons b bs =>
      simp only [zipLongest, List.length_cons, iha]
      omega

theorem zipLongest_getElem? {α β : Type} :
    ∀ (as : List α) (bs : List β) (i : Nat), i < max as.length bs.length →
      (zipLongest as bs)[i]? = some (as[i]?, bs[i]?) := by
  intro as
  induction as with
  | nil =>
    intro bs
    induction bs with
    | nil => intro i h; simp at h
    | cons b bs ihb =>
      intro i h
      cases i with
      | zero => simp [zipLongest]
      | succ i =>
        have := ihb i (by simp at h ⊢; omega)
        simpa [zipLongest] using this
  | cons a as iha =>
    intro bs i h
    cases bs with
    | nil =>
      cases i with
      | zero => simp [zipLongest]
      | succ i =>
        have := iha ([] : List β) i (by simp at h ⊢; omega)
        simpa [zipLongest] using this
    | cons b bs =>
      cases i with
      | zero => simp [zipLongest]
      | succ i =>
        have := iha bs i (by simp at h ⊢; omega)
        simpa [zipLongest] using this

theorem mergeSections_length :
    ∀ (k : Nat) (l : List (Option RSection × Option RSection)),
      (mergeSections k l).length = l.length := by
  intro k l
  induction l generalizing k with
  | nil => rfl
  | cons p rest ih =>
    obtain ⟨sa, sb⟩ := p
    simp only [mergeSections, List.length_cons, ih]

theorem mergeSections_getElem? :
    ∀ (k : Nat) (l : List (Option RSection × Option RSection)) (i : Nat)
      (sa sb : Option RSection), l[i]? = some (sa, sb) →
      (mergeSections k l)[i]? = some ⟨k + i, getHtml sa, getHtml sb⟩ := by
  intro k l
  induction l generalizing k with
  | nil => intro i sa sb h; simp at h
  | cons p rest ih =>
    obtain ⟨sa0, sb0⟩ := p
    intro i sa sb h
    cases i with
    | zero =>
      simp only [List.getElem?_cons_zero, Option.some.injEq, Prod.mk.injEq] at h
      simp only [mergeSections, List.getElem?_cons_zero, Option.some.injEq]
      rw [← h.1, ← h.2]
      simp
    | succ i =>
      simp only [List.getElem?_cons_succ] at h
      simp only [mergeSections, List.getElem?_cons_succ]
      have := ih (k + 1) i sa sb h
      rw [this]
      have harith : k + 1 + i = k + (i + 1) := by omega
      rw [harith]

/-!
## Claims about the merger
-/

/-- Claim C7: merging returns `max` many sections; the `i`-th merged section
carries index `i`, the source document's `i`-th html (empty when missing)
and the translation document's `i`-th html (empty when missing), in order,
nothing dropped. -/
theorem claim_C7 (A B : RDoc) :
    (merge_docs A B).sections.length = max A.sections.length B.sections.length ∧
    ∀ i, i < max A.sections.length B.sections.length →
      (merge_docs A B).sections[i]? =
        some ⟨i, getHtml (A.sections[i]?), getHtml (B.sections[i]?)⟩ := by
  constructor
  · show (mergeSections 0 (zipLongest A.sections B.sections)).length = _
    rw [mergeSections_length, zipLongest_length]
  · intro i hi
    have hz := zipLongest_getElem? A.sections B.sections i hi
    have hm := mergeSections_getElem? 0 (zipLongest A.sections B.sections) i _ _ hz
    simpa using hm

theorem claim_C7_witness :
    (merge_docs mergeExampleA mergeExampleB).sections.length = 3 ∧
    (merge_docs mergeExampleA mergeExampleB).sections[1]? = some ⟨1, "h2".data, []⟩ ∧
    (merge_docs mergeExampleA mergeExampleB).sections[2]? = some ⟨2, "h3".data, []⟩ :=
  ⟨(claim_C7 mergeExampleA mergeExampleB).1,
   (claim_C7 mergeExampleA mergeExampleB).2 1 (by decide),
   (claim_C7 mergeExampleA mergeExampleB).2 2 (by decide)⟩

/-!
## Lemmas about the preprocessor
-/

theorem takeWhile_append_eq (p : Char → Bool) :
    ∀ (l1 l2 : List Char), (∀ c ∈ l1, p c = true) →
      (∀ c, l2.head? = some c → p c = false) →
      (l1 ++ l2).takeWhile p = l1 ∧ (l1 ++ l2).dropWhile p = l2 := by
  intro l1
  induction l1 with
  | nil =>
    intro l2 _ h2
    cases l2 with
    | nil => exact ⟨rfl, rfl⟩
    | cons c l' =>
      have hc := h2 c rfl
      simp [List.takeWhile_cons, List.dropWhile_cons, hc]
  | cons a l1 ih =>
    intro l2 h1 h2
    have ha : p a = true := h1 a (List.mem_cons_self a l1)
    have hrec := ih l2 (fun c hc => h1 c (List.mem_cons_of_mem a hc)) h2
    simp [List.takeWhile_cons, List.dropWhile_cons, ha, hrec.1, hrec.2]

theorem subHeading_id_of_no_eq (s : List Char) (h : s.head? ≠ some '=') :
    subHeading s = s := by
  unfold subHeading headingMatch
  cases s with
  | nil => rfl
  | cons c rest =>
    have hc : ¬ c = '=' := fun hc => h (by rw [hc]; rfl)
    simp [List.takeWhile_cons, hc]

theorem findGroup_exact :
    ∀ (grp post : List Char), grp ≠ [] → '\n' ∉ grp → ']' ∉ grp →
      findGroup (grp ++ ']' :: ']' :: post) = some (grp, post) := by
  intro grp
  induction grp with
  | nil => intro post h; exact absurd rfl h
  | cons c rest ih =>
    intro post _ hnl hrb
    have hcnl : ¬ c = '\n' := fun hc => hnl (by rw [hc]; exact List.mem_cons_self _ _)
    cases rest with
    | nil =>
      show findGroup (c :: ']' :: ']' :: post) = some ([c], post)
      unfold findGroup
      rw [if_neg hcnl, if_pos (by rfl)]
      rfl
    | cons d rest2 =>
      have hd : ¬ d = ']' := fun hd =>
        hrb (by rw [← hd] at hrb ⊢; exact List.mem_cons_of_mem c (List.mem_cons_self d rest2))
      show findGroup (c :: (d :: rest2 ++ ']' :: ']' :: post)) = some (c :: d :: rest2, post)
      unfold findGroup
      rw [if_neg hcnl, if_neg (by
        intro htk
        apply hd
        have : (d :: rest2 ++ ']' :: ']' :: post).take 2 = d :: (rest2 ++ ']' :: ']' :: post).take 1 := rfl
        rw [this] at htk
        exact (List.cons.injEq _ _ _ _ ▸ htk).1)]
      have hrec := ih post (by simp)
        (fun hm => hnl (List.mem_cons_of_mem c hm))
        (fun hm => hrb (List.mem_cons_of_mem c hm))
      rw [hrec]

theorem bracketMatch_exact (grp post : List Char) (hg : grp ≠ []) (hnl : '\n' ∉ grp)
    (hrb : ']' ∉ grp) :
    bracketMatch ('[' :: '[' :: (grp ++ ']' :: ']' :: post)) = some (grp, post) := by
  show findGroup (grp ++ ']' :: ']' :: post) = some (grp, post)
  exact findGroup_exact grp post hg hnl hrb

theorem bracketMatch_not_lb (l : List Char) (h : l.head? ≠ some '[') :
    bracketMatch l = none := by
  unfold bracketMatch
  split
  · rename_i body
    exact absurd rfl h
  · rfl

theorem bracketMatch_single_lb (x : List Char) (h : x.head? ≠ some '[') :
    bracketMatch ('[' :: x) = none := by
  unfold bracketMatch
  split
  · rename_i body heq
    rw [List.cons.injEq] at heq
    exact absurd (by rw [heq.2]; rfl) h
  · rfl

theorem crossrefScan_rewrite (res : List Char → List Char) (c : Char) (grp post : List Char)
    (hc : c ≠ backtick) (hg : grp ≠ []) (hnl : '\n' ∉ grp) (hrb : ']' ∉ grp) :
    crossrefScan res (c :: '[' :: '[' :: (grp ++ ']' :: ']' :: post)) =
      match crossrefRepl res grp with
      | Except.error e => Except.error e
      | Except.ok rep => (crossrefScan res post).map (fun t => rep ++ t) := by
  rw [crossrefScan_cons, if_neg hc, bracketMatch_exact grp post hg hnl hrb]

theorem count_hash_zero (name : List Char) (h : '#' ∉ name) : name.count '#' = 0 :=
  List.count_eq_zero.mpr h

theorem crossrefRepl_plain (res : List Char → List Char) (name : List Char)
    (h : '#' ∉ name) :
    crossrefRepl res name =
      Except.ok (" [".data ++ name ++ "](".data ++ basename (res name) ++ ")".data) := by
  unfold crossrefRepl
  rw [if_pos (count_hash_zero name h)]

theorem count_hash_one (name anchor : List Char) (h1 : '#' ∉ name) (h2 : '#' ∉ anchor) :
    (name ++ '#' :: anchor).count '#' = 1 := by
  rw [List.count_append, count_hash_zero name h1, List.count_cons]
  rw [count_hash_zero anchor h2]
  simp

theorem crossrefRepl_anchor (res : List Char → List Char) (name anchor : List Char)
    (h1 : '#' ∉ name) (h2 : '#' ∉ anchor) :
    crossrefRepl res (name ++ '#' :: anchor) =
      Except.ok (" [".data ++ name ++ "](".data ++ basename (res name) ++ "#".data ++
        anchor ++ ")".data) := by
  unfold crossrefRepl
  have hcount := count_hash_one name anchor h1 h2
  have htw := takeWhile_append_eq (fun c => decide (¬ c = '#')) name ('#' :: anchor)
    (fun c hc => by
      simp only [decide_eq_true_eq]
      intro hcc
      exact h1 (hcc ▸ hc))
    (fun c hc => by
      have hcc : c = '#' := by
        simp only [List.head?_cons, Option.some.injEq] at hc
        exact hc.symm
      rw [hcc]
      simp)
  rw [if_neg (by rw [hcount]; exact one_ne_zero), if_pos hcount, htw.1, htw.2]
  rfl

theorem crossrefScan_rewrite_plain (res : List Char → List Char) (c : Char)
    (name post : List Char) (hc : c ≠ backtick) (hv : validName name) (hh : '#' ∉ name) :
    crossrefScan res (c :: '[' :: '[' :: (name ++ ']' :: ']' :: post)) =
      (crossrefScan res post).map
        (fun t => " [".data ++ name ++ "](".data ++ basename (res name) ++ ")".data ++ t) := by
  obtain ⟨hg, hnl, hrb, -⟩ := hv
  rw [crossrefScan_rewrite res c name post hc hg hnl hrb, crossrefRepl_plain res name hh]

theorem crossrefScan_rewrite_anchor (res : List Char → List Char) (c : Char)
    (name anchor post : List Char) (hc : c ≠ backtick) (hv : validName name)
    (hh : '#' ∉ name) (ha1 : '\n' ∉ anchor) (ha2 : ']' ∉ anchor) (ha3 : '#' ∉ anchor) :
    crossrefScan res (c :: '[' :: '[' :: ((name ++ '#' :: anchor) ++ ']' :: ']' :: post)) =
      (crossrefScan res post).map
        (fun t => " [".data ++ name ++ "](".data ++ basename (res name) ++ "#".data ++
          anchor ++ ")".data ++ t) := by
  obtain ⟨hg, hnl, hrb, -⟩ := hv
  have hg' : name ++ '#' :: anchor ≠ [] := by simp
  have hnl' : '\n' ∉ name ++ '#' :: anchor := by
    intro hm
    rcases List.mem_append.mp hm with hm | hm
    · exact hnl hm
    · rcases List.mem_cons.mp hm with hm | hm
      · exact absurd hm (by decide)
      · exact ha1 hm
  have hrb' : ']' ∉ name ++ '#' :: anchor := by
    intro hm
    rcases List.mem_append.mp hm with hm | hm
    · exact hrb hm
    · rcases List.mem_cons.mp hm with hm | hm
      · exact absurd hm (by decide)
      · exact ha2 hm
  rw [crossrefScan_rewrite res c _ post hc hg' hnl' hrb',
    crossrefRepl_anchor res name anchor hh ha3]

theorem crossrefScan_through_grp (res : List Char → List Char) :
    ∀ (grp : List Char), '[' ∉ grp → ∀ post : List Char,
      crossrefScan res (grp ++ ']' :: ']' :: post) =
        (crossrefScan res (']' :: post)).map (fun t => grp ++ ']' :: t) := by
  intro grp
  induction grp with
  | nil =>
    intro _ post
    show crossrefScan res (']' :: ']' :: post) = _
    rw [crossrefScan_cons, if_neg (by decide),
      bracketMatch_not_lb (']' :: post) (by simp)]
    cases hres : crossrefScan res (']' :: post) with
    | error e => rfl
    | ok t => rfl
  | cons g grest ih =>
    intro hlb post
    have hglb : ¬ g = '[' := fun hg => hlb (hg ▸ List.mem_cons_self g grest)
    have hrest : '[' ∉ grest := fun hm => hlb (List.mem_cons_of_mem g hm)
    show crossrefScan res (g :: (grest ++ ']' :: ']' :: post)) = _
    have hbm : bracketMatch (grest ++ ']' :: ']' :: post) = none := by
      apply bracketMatch_not_lb
      cases grest with
      | nil => simp
      | cons d drest =>
        have hd : ¬ d = '[' := fun hd => hrest (hd ▸ List.mem_cons_self d drest)
        simp only [List.cons_append, List.head?_cons, Option.some.injEq]
        exact fun hdd => hd (Option.some.inj hdd)
    rw [crossrefScan_cons]
    by_cases hg : g = backtick
    · rw [if_pos hg, ih hrest post]
      cases hres : crossrefScan res (']' :: post) with
      | error e => rfl
      | ok t => rfl
    · rw [if_neg hg, hbm, ih hrest post]
      cases hres : crossrefScan res (']' :: post) with
      | error e => rfl
      | ok t => rfl

theorem crossrefScan_bracket_head (res : List Char → List Char) (grp post : List Char)
    (hg : grp ≠ []) (hlb : '[' ∉ grp) :
    crossrefScan res ('[' :: '[' :: (grp ++ ']' :: ']' :: post)) =
      (crossrefScan res (']' :: post)).map (fun t => '[' :: '[' :: (grp ++ ']' :: t)) := by
  have hhead : (grp ++ ']' :: ']' :: post).head? ≠ some '[' := by
    cases grp with
    | nil => exact absurd rfl hg
    | cons d drest =>
      have hd : ¬ d = '[' := fun hd => hlb (hd ▸ List.mem_cons_self d drest)
      simp only [List.cons_append, List.head?_cons, Option.some.injEq]
      exact fun hdd => hd (Option.some.inj hdd)
  rw [crossrefScan_cons, if_neg (by decide), bracketMatch_single_lb _ hhead]
  rw [crossrefScan_cons, if_neg (by decide), bracketMatch_not_lb _ hhead]
  rw [crossrefScan_through_grp res grp hlb post]
  cases hres : crossrefScan res (']' :: post) with
  | error e => rfl
  | ok t => rfl

theorem crossrefScan_id_of_no_lb (res : List Char → List Char) :
    ∀ l : List Char, '[' ∉ l → crossrefScan res l = Except.ok l := by
  intro l
  induction l with
  | nil => intro _; rfl
  | cons c rest ih =>
    intro h
    have hrest : '[' ∉ rest := fun hm => h (List.mem_cons_of_mem c hm)
    have hbm : bracketMatch rest = none := by
      apply bracketMatch_not_lb
      cases rest with
      | nil => simp
      | cons d drest =>
        have hd : ¬ d = '[' := fun hd => hrest (hd ▸ List.mem_cons_self d drest)
        simp only [List.head?_cons, Option.some.injEq]
        exact fun hdd => hd (Option.some.inj hdd)
    rw [crossrefScan_cons]
    by_cases hc : c = backtick
    · rw [if_pos hc, ih hrest]; rfl
    · rw [if_neg hc, hbm, ih hrest]; rfl

/-!
## Claims about the cross-reference rule
-/

/-- Claim C6, counterexample: an occurrence of `[[name]]` at the very start
of the comment text is not immediately preceded by a backtick, yet it is
NOT rewritten (the pattern consumes one preceding character, which does not
exist there), so "every occurrence not immediately preceded by a backtick
is rewritten" fails. -/
theorem claim_C6_counterexample :
    preprocess (fun _ => "out/helpers.html".data) "[[helpers]] for details.".data =
      Except.ok "[[helpers]] for details.".data := by decide

/-- Claim C6 amended: an occurrence of `[[name]]` or `[[name#anchor]]`
immediately preceded by a non-backtick character is rewritten into a
markdown link whose target is the basename of the resolver's output for
`name` (suffixed with `#anchor` when present) and whose text is `name`,
the preceding character being replaced by a space; an occurrence preceded
by a backtick (or standing at the very start of the text) is left intact;
the spec's example rewrites as stated. -/
theorem claim_C6_amended :
    (∀ (res : List Char → List Char) (c : Char) (name post : List Char),
      c ≠ backtick → validName name → '#' ∉ name →
      crossrefScan res (c :: '[' :: '[' :: (name ++ ']' :: ']' :: post)) =
        (crossrefScan res post).map
          (fun t => " [".data ++ name ++ "](".data ++ basename (res name) ++ ")".data ++ t)) ∧
    (∀ (res : List Char → List Char) (c : Char) (name anchor post : List Char),
      c ≠ backtick → validName name → '#' ∉ name →
      '\n' ∉ anchor → ']' ∉ anchor → '#' ∉ anchor →
      crossrefScan res (c :: '[' :: '[' :: ((name ++ '#' :: anchor) ++ ']' :: ']' :: post)) =
        (crossrefScan res post).map
          (fun t => " [".data ++ name ++ "](".data ++ basename (res name) ++ "#".data ++
            anchor ++ ")".data ++ t)) ∧
    (∀ (res : List Char → List Char) (name post : List Char), validName name →
      crossrefScan res (backtick :: '[' :: '[' :: (name ++ ']' :: ']' :: post)) =
        (crossrefScan res (']' :: post)).map
          (fun t => backtick :: '[' :: '[' :: (name ++ ']' :: t))) ∧
    preprocess (fun _ => "out/helpers.html".data) "See [[helpers]] for details.".data =
      Except.ok "See [helpers](helpers.html) for details.".data := by
  refine ⟨?_, ?_, ?_, by decide⟩
  · intro res c name post hc hv hh
    exact crossrefScan_rewrite_plain res c name post hc hv hh
  · intro res c name anchor post hc hv hh ha1 ha2 ha3
    exact crossrefScan_rewrite_anchor res c name anchor post hc hv hh ha1 ha2 ha3
  · intro res name post hv
    obtain ⟨hg, -, -, hlb⟩ := hv
    rw [crossrefScan_cons, if_pos rfl,
      crossrefScan_bracket_head res name post hg hlb]
    cases hres : crossrefScan res (']' :: post) with
    | error e => rfl
    | ok t => rfl

theorem claim_C6_amended_witness :
    crossrefScan (fun _ => "docs/a.html".data) " [[ab]]".data =
      Except.ok " [ab](a.html)".data :=
  claim_C6_amended.1 (fun _ => "docs/a.html".data) ' ' "ab".data []
    (by decide) (by decide) (by decide)

/-- Claim C9: the cross-reference pattern needs one character before the
brackets: an occurrence at the very start of the comment is never
rewritten, and when a rewrite fires, the single non-backtick character in
front of `[[` is consumed and replaced by the space that starts the
replacement. -/
theorem claim_C9 :
    (∀ (res : List Char → List Char) (name : List Char), validName name →
      preprocess res ('[' :: '[' :: (name ++ [']', ']'])) =
        Except.ok ('[' :: '[' :: (name ++ [']', ']']))) ∧
    (∀ (res : List Char → List Char) (c : Char) (name : List Char),
      c ≠ backtick → validName name → '#' ∉ name →
      crossrefScan res (c :: '[' :: '[' :: (name ++ [']', ']'])) =
        Except.ok (" [".data ++ name ++ "](".data ++ basename (res name) ++ ")".data)) := by
  constructor
  · intro res name hv
    obtain ⟨hg, -, -, hlb⟩ := hv
    unfold preprocess
    rw [subHeading_id_of_no_eq _ (by simp)]
    have h2 : ('[' :: '[' :: (name ++ [']', ']'])) =
        ('[' :: '[' :: (name ++ ']' :: ']' :: ([] : List Char))) := rfl
    rw [h2, crossrefScan_bracket_head res name [] hg hlb]
    rfl
  · intro res c name hc hv hh
    have h2 : (c :: '[' :: '[' :: (name ++ [']', ']'])) =
        (c :: '[' :: '[' :: (name ++ ']' :: ']' :: ([] : List Char))) := rfl
    rw [h2, crossrefScan_rewrite_plain res c name [] hc hv hh, crossrefScan_nil]
    simp [Except.map]

theorem claim_C9_witness :
    preprocess (fun _ => []) "[[main.py]]".data = Except.ok "[[main.py]]".data ∧
    crossrefScan (fun _ => "docs/b.html".data) "x[[m]]".data =
      Except.ok " [m](b.html)".data :=
  ⟨claim_C9.1 (fun _ => []) "main.py".data (by decide),
   claim_C9.2 (fun _ => "docs/b.html".data) 'x' "m".data (by decide) (by decide) (by decide)⟩

/-!
## Lemmas about the heading rule
-/

theorem headingMatch_shape (k : Nat) (g2 : List Char) (m : Nat) (w : List Char)
    (hk : 1 ≤ k) (hg : g2 ≠ []) (hge : '=' ∉ g2) (hw : ∀ c ∈ w, isPySpace c = true)
    (hmw : 1 ≤ m ∨ w = []) :
    headingMatch (List.replicate k '=' ++ (g2 ++ (List.replicate m '=' ++ w))) =
      some (k, g2) := by
  have hstep1 := takeWhile_append_eq (fun c => decide (c = '='))
    (List.replicate k '=') (g2 ++ (List.replicate m '=' ++ w))
    (fun c hc => by
      rw [List.eq_of_mem_replicate hc]
      simp)
    (fun c hc => by
      cases g2 with
      | nil => exact absurd rfl hg
      | cons a g' =>
        simp only [List.cons_append, List.head?_cons, Option.some.injEq] at hc
        have ha : a ≠ '=' := fun haq => hge (haq ▸ List.mem_cons_self a g')
        rw [← hc]
        simp [ha])
  have hstep2 := takeWhile_append_eq (fun c => !decide (c = '='))
    g2 (List.replicate m '=' ++ w)
    (fun c hc => by
      have : c ≠ '=' := fun hcc => hge (hcc ▸ hc)
      simp [this])
    (fun c hc => by
      rcases hmw with hm1 | hw0
      · cases m with
        | zero => omega
        | succ m =>
          simp only [List.replicate, List.cons_append, List.head?_cons,
            Option.some.injEq] at hc
          rw [← hc]
          simp
      · subst hw0
        cases m with
        | zero => simp at hc
        | succ m =>
          simp only [List.replicate, List.append_nil, List.head?_cons,
            Option.some.injEq] at hc
          rw [← hc]
          simp)
  have hstep3 := takeWhile_append_eq (fun c => decide (c = '='))
    (List.replicate m '=') w
    (fun c hc => by
      rw [List.eq_of_mem_replicate hc]
      simp)
    (fun c hc => by
      cases w with
      | nil => simp at hc
      | cons b w' =>
        simp only [List.head?_cons, Option.some.injEq] at hc
        have hb := hw b (List.mem_cons_self b w')
        have hbne : b ≠ '=' := by
          intro hbq
          rw [hbq] at hb
          exact absurd hb (by decide)
        rw [← hc]
        simp [hbne])
  unfold headingMatch
  dsimp only
  rw [hstep1.1, hstep1.2, hstep2.1, hstep2.2, hstep3.2]
  rw [if_pos ⟨by simpa using hk, by
    have : g2.length ≠ 0 := fun h0 => hg (List.length_eq_zero.mp h0)
    omega, List.all_eq_true.mpr hw⟩]
  simp

theorem pyLowerChar_lb (a : Char) (h : pyLowerChar a = '[') : a = '[' := by
  unfold pyLowerChar at h
  split at h
  · rename_i hcase
    exfalso
    obtain ⟨h1, h2⟩ := hcase
    rw [Char.le_def] at h1 h2
    have ha1 : 65 ≤ a.toNat := h1
    have ha2 : a.toNat ≤ 90 := h2
    have hval : (Char.ofNat (a.toNat + 32)).toNat = a.toNat + 32 := by
      unfold Char.ofNat
      rw [dif_pos]
      · rfl
      · exact Or.inl (by omega)
    have hcong := congrArg Char.toNat h
    rw [hval] at hcong
    have h91 : ('[' : Char).toNat = 91 := by decide
    rw [h91] at hcong
    omega
  · exact h

theorem pySplitCore_mem (sep : Char) :
    ∀ l : List Char, (∀ c ∈ (pySplitCore sep l).1, c ∈ l) ∧
      (∀ seg ∈ (pySplitCore sep l).2, ∀ c ∈ seg, c ∈ l) := by
  intro l
  induction l with
  | nil => exact ⟨fun c hc => absurd hc (List.not_mem_nil c), fun seg hseg => absurd hseg (List.not_mem_nil seg)⟩
  | cons a rest ih =>
    simp only [pySplitCore]
    by_cases ha : a = sep
    · rw [if_pos ha]
      constructor
      · intro c hc
        exact absurd hc (List.not_mem_nil c)
      · intro seg hseg c hc
        rcases List.mem_cons.mp hseg with hseg | hseg
        · exact List.mem_cons_of_mem a (ih.1 c (hseg ▸ hc))
        · exact List.mem_cons_of_mem a (ih.2 seg hseg c hc)
    · rw [if_neg ha]
      constructor
      · intro c hc
        rcases List.mem_cons.mp hc with hc | hc
        · exact hc ▸ List.mem_cons_self a rest
        · exact List.mem_cons_of_mem a (ih.1 c hc)
      · intro seg hseg c hc
        exact List.mem_cons_of_mem a (ih.2 seg hseg c hc)

theorem joinDash_mem :
    ∀ (L : List (List Char)) (c : Char), c ∈ joinDash L →
      c = '-' ∨ ∃ seg ∈ L, c ∈ seg := by
  intro L
  induction L with
  | nil => intro c hc; exact absurd hc (List.not_mem_nil c)
  | cons x xs ih =>
    intro c hc
    cases xs with
    | nil =>
      right
      exact ⟨x, List.mem_cons_self x [], hc⟩
    | cons y ys =>
      rw [show joinDash (x :: y :: ys) = x ++ '-' :: joinDash (y :: ys) from rfl] at hc
      rcases List.mem_append.mp hc with hc | hc
      · exact Or.inr ⟨x, List.mem_cons_self x _, hc⟩
      · rcases List.mem_cons.mp hc with hc | hc
        · exact Or.inl hc
        · rcases ih c hc with hc | ⟨seg, hseg, hcseg⟩
          · exact Or.inl hc
          · exact Or.inr ⟨seg, List.mem_cons_of_mem x hseg, hcseg⟩

theorem sanitize_no_lb (g2 : List Char) (h : '[' ∉ g2) :
    '[' ∉ sanitize_section_name g2 := by
  intro hmem
  unfold sanitize_section_name pySplit at hmem
  rcases joinDash_mem _ '[' hmem with hq | ⟨seg, hseg, hcseg⟩
  · exact absurd hq (by decide)
  · have hin : '[' ∈ pyStrip (pyLower g2) := by
      rcases List.mem_cons.mp hseg with hseg | hseg
      · exact (pySplitCore_mem ' ' (pyStrip (pyLower g2))).1 '[' (hseg ▸ hcseg)
      · exact (pySplitCore_mem ' ' (pyStrip (pyLower g2))).2 seg hseg '[' hcseg
    have hin2 : '[' ∈ pyLower g2 := by
      unfold pyStrip pyRStrip pyLStrip at hin
      rw [List.mem_reverse] at hin
      have := (List.dropWhile_sublist (l := (pyLower g2).dropWhile isPySpace |>.reverse)
        (p := isPySpace)).subset hin
      rw [List.mem_reverse] at this
      exact (List.dropWhile_sublist (l := pyLower g2) (p := isPySpace)).subset this
    rcases List.mem_map.mp hin2 with ⟨a, ha, haeq⟩
    exact h (pyLowerChar_lb a haeq ▸ ha)

theorem headingRepl_no_lb (k : Nat) (g2 : List Char) (h : '[' ∉ g2) :
    '[' ∉ headingRepl k g2 := by
  intro hmem
  unfold headingRepl at hmem
  rcases List.mem_append.mp hmem with hmem | hmem
  swap
  · exact absurd hmem (by decide)
  rcases List.mem_append.mp hmem with hmem | hmem
  swap
  · exact h hmem
  rcases List.mem_append.mp hmem with hmem | hmem
  swap
  · exact absurd hmem (by decide)
  rcases List.mem_append.mp hmem with hmem | hmem
  swap
  · exact sanitize_no_lb g2 h hmem
  rcases List.mem_append.mp hmem with hmem | hmem
  swap
  · exact absurd hmem (by decide)
  rcases List.mem_append.mp hmem with hmem | hmem
  swap
  · exact sanitize_no_lb g2 h hmem
  rcases List.mem_append.mp hmem with hmem | hmem
  · exact absurd (List.eq_of_mem_replicate hmem) (by decide)
  · exact absurd hmem (by decide)

/-!
## Claims about the heading rule
-/

/-- Claim C5, counterexample: the heading pattern is compiled without
MULTILINE, so a heading line that is not the whole comment (here preceded
by another line) is NOT rewritten, contradicting "any line ... is
rewritten". -/
theorem claim_C5_counterexample :
    preprocess (fun _ => []) "x\n=== Setup ===".data =
      Except.ok "x\n=== Setup ===".data := by decide

/-- Claim C5 amended: only a comment whose entire text is one heading
pattern (leading `=` run, then `=`-free bracket-free text, then a trailing
`=` run and whitespace reaching the end of the text) is rewritten, into
`replace_section_name`'s marker: `#` repeated as many times as the leading
`=` count, wrapping the group text (whitespace preserved) in an anchor
whose id is the text lower-cased, stripped and spaces-to-hyphens; the
spec's `"=== Setup ==="` example yields the level-3 heading with anchor id
`setup`. -/
theorem claim_C5_amended :
    (∀ (res : List Char → List Char) (k : Nat) (g2 : List Char) (m : Nat) (w : List Char),
      1 ≤ k → g2 ≠ [] → '=' ∉ g2 → '[' ∉ g2 →
      (∀ c ∈ w, isPySpace c = true) → (1 ≤ m ∨ w = []) →
      preprocess res (List.replicate k '=' ++ (g2 ++ (List.replicate m '=' ++ w))) =
        Except.ok (headingRepl k g2)) ∧
    preprocess (fun _ => []) "=== Setup ===".data =
      Except.ok "### <span id=\"setup\" href=\"setup\"> Setup </span>".data := by
  constructor
  · intro res k g2 m w hk hg hge hlb hw hmw
    unfold preprocess subHeading
    rw [headingMatch_shape k g2 m w hk hg hge hw hmw]
    exact crossrefScan_id_of_no_lb res (headingRepl k g2) (headingRepl_no_lb k g2 hlb)
  · decide

theorem claim_C5_amended_witness :
    preprocess (fun _ => []) "== My Title =  ".data = Except.ok (headingRepl 2 " My Title ".data) :=
  claim_C5_amended.1 (fun _ => []) 2 " My Title ".data 1 "  ".data
    (by decide) (by decide) (by decide) (by decide) (by decide) (Or.inl (by decide))

/-!
## Claims about language detection
-/

/-- Claim C10: `parse` depends on the source file name, not only the text.
With no forced language it takes the stem of the file's basename (the
`(.*)(\..+)` regex group) and asks the locale parser; whenever that fails
(no stem, or the stem is not a recognizable locale) `parse` raises
`ValueError` before any splitting, and when it succeeds the document's
language is the parsed locale's language. -/
theorem claim_C10 :
    (∀ (lp : List Char → Option (List Char)) (r : Renderer) (source text : List Char),
      (∀ stem, fileStem (basename source) = some stem → lp stem = none) →
      parse lp r source text none =
        Except.error (PyErr.valueError "Can't figure out the language!")) ∧
    (∀ (lp : List Char → Option (List Char)) (r : Renderer)
      (source text stem lang : List Char) (d : ParsedDoc),
      fileStem (basename source) = some stem → lp stem = some lang →
      splitText r text = some d →
      parse lp r source text none = Except.ok ⟨d.title, lang, d.sections⟩) := by
  constructor
  · intro lp r source text h
    unfold parse get_language
    cases hfs : fileStem (basename source) with
    | none => rfl
    | some stem =>
      dsimp only
      rw [h stem hfs]
  · intro lp r source text stem lang d hfs hlp hsp
    unfold parse get_language
    rw [hfs]
    dsimp only
    rw [hlp]
    dsimp only
    rw [hsp]

theorem claim_C10_witness :
    parse (fun _ => none) mdRenderer "nolocale.py".data "t\nx".data none =
      Except.error (PyErr.valueError "Can't figure out the language!") ∧
    parse (fun _ => some "en".data) mdRenderer "en.md".data "t\nx".data none =
      Except.ok ⟨"t".data, "en".data, ["\nx".data]⟩ :=
  ⟨claim_C10.1 (fun _ => none) mdRenderer "nolocale.py".data "t\nx".data (fun _ _ => rfl),
   claim_C10.2 (fun _ => some "en".data) mdRenderer "en.md".data "t\nx".data
     "en".data "en".data ⟨"t".data, ["\nx".data]⟩ (by decide) rfl (by decide)⟩
